import Mathlib

/-!
Verification of the ancestor-tree application ("Legacy Tree").

The development shallowly embeds the repository's family-tree data model and
its pure mutation operations (degree calculation, subtree deletion with its
guard, field update, add-ancestor, add-spouse), the deterministic per-id
layout jitter, the sibling separation function of the tree layout, and the
spouse expansion toggle.  Each embedded definition mirrors one function of
the source; theorems below settle the specification's claims about them.

Conventions of the embedding:
* TypeScript's optional fields become `Option`.
* The `alert(...)` side effect of `addSpouseToNode` is made explicit: the
  function returns the new tree together with a `Bool` recording whether an
  alert fired.
* The time/random derived ids of freshly created nodes (`Date.now()` based
  in the source) are environment inputs; they are threaded in as an explicit
  `freshId : String` argument.
* JavaScript numbers that matter here are exact: the FNV hash arithmetic is
  32-bit integer arithmetic (modelled as `Nat` mod 2^32) and the derived
  offsets are dyadic rationals, represented in `ℚ`.
-/

/-- The recursive family data model (source: `types.ts`, `FamilyMember`).
Fields in order: `id`, `name`, `year`, `imageUrl`, `relationship`,
`parents`, `spouse`.  `parents` is an optional array in the source, hence
`Option (List FamilyMember)`; `spouse` is an optional single node. -/
inductive FamilyMember : Type where
  | mk : String → String → String → String → Option String →
         Option (List FamilyMember) → Option FamilyMember → FamilyMember

/-- Projection: the `id` field. -/
def FamilyMember.id : FamilyMember → String
  | .mk i _ _ _ _ _ _ => i

/-- Projection: the `name` field. -/
def FamilyMember.name : FamilyMember → String
  | .mk _ n _ _ _ _ _ => n

/-- Projection: the `year` field. -/
def FamilyMember.year : FamilyMember → String
  | .mk _ _ y _ _ _ _ => y

/-- Projection: the `imageUrl` field. -/
def FamilyMember.imageUrl : FamilyMember → String
  | .mk _ _ _ img _ _ _ => img

/-- Projection: the optional `relationship` field. -/
def FamilyMember.relationship : FamilyMember → Option String
  | .mk _ _ _ _ r _ _ => r

/-- Projection: the optional `parents` array. -/
def FamilyMember.parents : FamilyMember → Option (List FamilyMember)
  | .mk _ _ _ _ _ ps _ => ps

/-- Projection: the optional `spouse` field. -/
def FamilyMember.spouse : FamilyMember → Option FamilyMember
  | .mk _ _ _ _ _ _ sp => sp

/-- The seed dataset (source: `constants.ts`, `INITIAL_DATA`): root
"Samuel Legacy" with ancestors "Eleanor Rigby" (`p1`, who has her own
ancestor "Father Rigby", `gp1`) and "Arthur Legacy" (`p2`, empty parents
array). -/
def INITIAL_DATA : FamilyMember :=
  .mk "root" "Samuel Legacy" "1955" "https://picsum.photos/id/1062/200/200" none
    (some
      [ .mk "p1" "Eleanor Rigby" "1925" "https://picsum.photos/id/338/200/200" (some "Mother")
          (some
            [ .mk "gp1" "Father Rigby" "1899" "https://picsum.photos/id/1005/200/200"
                (some "Grandfather") none none ])
          none,
        .mk "p2" "Arthur Legacy" "1928" "https://picsum.photos/id/1025/200/200" (some "Father")
          (some []) none ])
    none

mutual

/-- Degree contribution of the subtree rooted at a node (source: `App.tsx`,
`calculateDegree`'s inner `traverse`):  if the node is the target, count its
outgoing references (`parents.length` plus 1 for a spouse); add 1 if its
parents array contains the target, recursing into each parent; add 1 if its
spouse is the target, recursing into the spouse. -/
def degreeAux (t : String) : FamilyMember → Nat
  | .mk i _ _ _ _ ps sp =>
    (if i = t then
        (match ps with | some l => l.length | none => 0) +
        (match sp with | some _ => 1 | none => 0)
     else 0) +
    (match ps with
     | some l => (if l.any (fun p => p.id == t) then 1 else 0) + degreeListAux t l
     | none => 0) +
    (match sp with
     | some s => (if s.id = t then 1 else 0) + degreeAux t s
     | none => 0)

/-- Sum of `degreeAux` over a parents array (the `forEach(traverse)` part). -/
def degreeListAux (t : String) : List FamilyMember → Nat
  | [] => 0
  | p :: r => degreeAux t p + degreeListAux t r

end

/-- Total connection count of the node `targetId` in the tree (source:
`App.tsx`, `calculateDegree`). -/
def calculateDegree (root : FamilyMember) (targetId : String) : Nat :=
  degreeAux targetId root

mutual

/-- Strict pruning deletion (source: `App.tsx`, `deleteNode`): returns
`none` when this node is the target (the caller unlinks it); otherwise
rebuilds the node with the target deleted from the spouse slot and the
parents array. -/
def deleteNode (targetId : String) : FamilyMember → Option FamilyMember
  | .mk i n y img r ps sp =>
    if i = targetId then none
    else some (.mk i n y img r (deleteNodeLO targetId ps) (deleteNodeSp targetId sp))

/-- Deletion inside the optional spouse slot: a deleted spouse clears the
link (`updatedSpouse = undefined`). -/
def deleteNodeSp (targetId : String) : Option FamilyMember → Option FamilyMember
  | none => none
  | some s => deleteNode targetId s

/-- Deletion inside a parents array: deleted entries are dropped, order of
the remaining entries is preserved. -/
def deleteNodeL (targetId : String) : List FamilyMember → List FamilyMember
  | [] => []
  | p :: r =>
    match deleteNode targetId p with
    | none => deleteNodeL targetId r
    | some q => q :: deleteNodeL targetId r

/-- Deletion inside an optional parents array. -/
def deleteNodeLO (targetId : String) : Option (List FamilyMember) → Option (List FamilyMember)
  | none => none
  | some l => some (deleteNodeL targetId l)

end

/-- The delete request handler (source: `App.tsx`, `handleDeleteMember`):
rejects deleting the root id, rejects when the computed degree is greater
than 1, else replaces the state with the pruned tree (keeping the old state
if pruning ever yielded no tree). -/
def handleDeleteMember (data : FamilyMember) (id : String) : FamilyMember :=
  if id = data.id then data
  else if calculateDegree data id > 1 then data
  else
    match deleteNode id data with
    | some newData => newData
    | none => data

mutual

/-- Whether the id occurs anywhere in the tree (through `spouse` and
`parents` edges). -/
def containsId (t : String) : FamilyMember → Bool
  | .mk i _ _ _ _ ps sp =>
    (i = t) || containsIdSp t sp || containsIdLO t ps

/-- `containsId` through an optional spouse. -/
def containsIdSp (t : String) : Option FamilyMember → Bool
  | none => false
  | some s => containsId t s

/-- `containsId` through a parents array. -/
def containsIdL (t : String) : List FamilyMember → Bool
  | [] => false
  | p :: r => containsId t p || containsIdL t r

/-- `containsId` through an optional parents array. -/
def containsIdLO (t : String) : Option (List FamilyMember) → Bool
  | none => false
  | some l => containsIdL t l

end

/-- An update record over the editable display fields
(source: `EditModal.tsx` calls `onSave(member.id, { name, year, imageUrl,
relationship })`; `App.tsx` merges it with object spread).  A `some` field
is present in the patch and overrides, a `none` field is absent. -/
structure Patch where
  name : Option String
  year : Option String
  imageUrl : Option String
  relationship : Option String
deriving DecidableEq

/-- The patch with no fields present. -/
def emptyPatch : Patch := ⟨none, none, none, none⟩

/-- The object-spread merge `{ ...tree, ...updates }` restricted to the
display fields: present patch fields override, everything else (id,
parents, spouse) is kept. -/
def applyPatch (u : Patch) : FamilyMember → FamilyMember
  | .mk i n y img r ps sp =>
    .mk i (u.name.getD n) (u.year.getD y) (u.imageUrl.getD img)
      (match u.relationship with | some rel => some rel | none => r) ps sp

mutual

/-- Field update by id (source: `App.tsx`, `updateNode`): merge the patch
at the node with the target id; otherwise rebuild with the spouse slot
(merging directly when the spouse matches, recursing when it does not) and
with the update mapped over the parents array. -/
def updateNode (targetId : String) (updates : Patch) : FamilyMember → FamilyMember
  | .mk i n y img r ps sp =>
    if i = targetId then applyPatch updates (.mk i n y img r ps sp)
    else .mk i n y img r (updateNodeLO targetId updates ps) (updateNodeSp targetId updates sp)

/-- `updateNode` inside the optional spouse slot. -/
def updateNodeSp (targetId : String) (updates : Patch) :
    Option FamilyMember → Option FamilyMember
  | none => none
  | some s =>
    if s.id = targetId then some (applyPatch updates s)
    else some (updateNode targetId updates s)

/-- `updateNode` mapped over a parents array. -/
def updateNodeL (targetId : String) (updates : Patch) : List FamilyMember → List FamilyMember
  | [] => []
  | p :: r => updateNode targetId updates p :: updateNodeL targetId updates r

/-- `updateNode` inside an optional parents array. -/
def updateNodeLO (targetId : String) (updates : Patch) :
    Option (List FamilyMember) → Option (List FamilyMember)
  | none => none
  | some l => some (updateNodeL targetId updates l)

end

/-- JavaScript `parseInt` with radix 10 on a trimmed decimal string: skip
leading whitespace, read an optional sign and then a maximal run of digits;
`none` models `NaN` (no digits). -/
def jsParseInt (s : String) : Option Int :=
  let cs := s.data.dropWhile (fun ch => ch = ' ' || ch = '\t' || ch = '\n' || ch = '\r')
  let signAndRest : Int × List Char :=
    match cs with
    | '-' :: r => (-1, r)
    | '+' :: r => (1, r)
    | r => (1, r)
  let ds := signAndRest.2.takeWhile Char.isDigit
  if ds = [] then none
  else some (signAndRest.1 * ((ds.foldl (fun a ch => a * 10 + (ch.toNat - 48)) 0 : Nat) : Int))

/-- The synthetic ancestor created by `addParentToNode` (source: `App.tsx`):
name "New Ancestor", year is the target's year parsed as an integer minus
25 (the string "NaN" when the year does not parse, as in JavaScript),
placeholder image, relationship "Parent", empty parents array.  The
time/random derived id is the explicit `freshId` argument. -/
def newAncestorNode (freshId : String) (targetYear : String) : FamilyMember :=
  .mk freshId "New Ancestor"
    (match jsParseInt targetYear with
     | some v => toString (v - 25)
     | none => "NaN")
    "https://picsum.photos/200" (some "Parent") (some []) none

mutual

/-- Add a synthetic ancestor (source: `App.tsx`, `addParentToNode`): at the
node with the target id, append `newAncestorNode` to its parents array
(created as a one-element array when absent) and return without recursing;
otherwise rebuild with the recursion mapped through spouse and parents. -/
def addParentToNode (freshId targetId : String) : FamilyMember → FamilyMember
  | .mk i n y img r ps sp =>
    if i = targetId then
      .mk i n y img r
        (some ((match ps with | some l => l | none => []) ++ [newAncestorNode freshId y])) sp
    else .mk i n y img r (addParentLO freshId targetId ps) (addParentSp freshId targetId sp)

/-- `addParentToNode` inside the optional spouse slot. -/
def addParentSp (freshId targetId : String) : Option FamilyMember → Option FamilyMember
  | none => none
  | some s => some (addParentToNode freshId targetId s)

/-- `addParentToNode` mapped over a parents array. -/
def addParentL (freshId targetId : String) : List FamilyMember → List FamilyMember
  | [] => []
  | p :: r => addParentToNode freshId targetId p :: addParentL freshId targetId r

/-- `addParentToNode` inside an optional parents array. -/
def addParentLO (freshId targetId : String) :
    Option (List FamilyMember) → Option (List FamilyMember)
  | none => none
  | some l => some (addParentL freshId targetId l)

end

/-- The synthetic spouse created by `addSpouseToNode` (source: `App.tsx`):
name "New Spouse", the same year as the target, placeholder image,
relationship "Spouse", empty parents array; the `Date.now()` derived id is
the explicit `freshId` argument. -/
def newSpouseNode (freshId : String) (targetYear : String) : FamilyMember :=
  .mk freshId "New Spouse" targetYear "https://picsum.photos/200" (some "Spouse") (some []) none

mutual

/-- Add a synthetic spouse (source: `App.tsx`, `addSpouseToNode`): at the
node with the target id, if a spouse already exists raise the alert
("already has a spouse") and return the node unchanged, else set the spouse
to `newSpouseNode`; otherwise rebuild with the recursion mapped through
spouse and parents.  The second component records whether an alert fired. -/
def addSpouseToNode (freshId targetId : String) : FamilyMember → FamilyMember × Bool
  | .mk i n y img r ps sp =>
    if i = targetId then
      match sp with
      | some s => (.mk i n y img r ps (some s), true)
      | none => (.mk i n y img r ps (some (newSpouseNode freshId y)), false)
    else
      (.mk i n y img r (addSpouseLO freshId targetId ps).1 (addSpouseSp freshId targetId sp).1,
        (addSpouseSp freshId targetId sp).2 || (addSpouseLO freshId targetId ps).2)

/-- `addSpouseToNode` inside the optional spouse slot. -/
def addSpouseSp (freshId targetId : String) :
    Option FamilyMember → Option FamilyMember × Bool
  | none => (none, false)
  | some s =>
    (some (addSpouseToNode freshId targetId s).1, (addSpouseToNode freshId targetId s).2)

/-- `addSpouseToNode` mapped over a parents array. -/
def addSpouseL (freshId targetId : String) : List FamilyMember → List FamilyMember × Bool
  | [] => ([], false)
  | p :: r =>
    ((addSpouseToNode freshId targetId p).1 :: (addSpouseL freshId targetId r).1,
      (addSpouseToNode freshId targetId p).2 || (addSpouseL freshId targetId r).2)

/-- `addSpouseToNode` inside an optional parents array. -/
def addSpouseLO (freshId targetId : String) :
    Option (List FamilyMember) → Option (List FamilyMember) × Bool
  | none => (none, false)
  | some l => (some (addSpouseL freshId targetId l).1, (addSpouseL freshId targetId l).2)

end

mutual

/-- All ids of the tree in traversal order: the node itself, then its
spouse subtree, then its parents subtrees. -/
def idsOf : FamilyMember → List String
  | .mk i _ _ _ _ ps sp => i :: (idsOfSp sp ++ idsOfLO ps)

/-- `idsOf` of an optional spouse. -/
def idsOfSp : Option FamilyMember → List String
  | none => []
  | some s => idsOf s

/-- `idsOf` of a parents array. -/
def idsOfL : List FamilyMember → List String
  | [] => []
  | p :: r => idsOf p ++ idsOfL r

/-- `idsOf` of an optional parents array. -/
def idsOfLO : Option (List FamilyMember) → List String
  | none => []
  | some l => idsOfL l

end

mutual

/-- Locate the node with the given id (first match in the traversal order
of `idsOf`: the node itself, then the spouse subtree, then the parents). -/
def findNode (t : String) : FamilyMember → Option FamilyMember
  | .mk i n y img r ps sp =>
    if i = t then some (.mk i n y img r ps sp)
    else
      match findNodeSp t sp with
      | some q => some q
      | none => findNodeLO t ps

/-- `findNode` through an optional spouse. -/
def findNodeSp (t : String) : Option FamilyMember → Option FamilyMember
  | none => none
  | some s => findNode t s

/-- `findNode` through a parents array. -/
def findNodeL (t : String) : List FamilyMember → Option FamilyMember
  | [] => none
  | p :: r =>
    match findNode t p with
    | some q => some q
    | none => findNodeL t r

/-- `findNode` through an optional parents array. -/
def findNodeLO (t : String) : Option (List FamilyMember) → Option FamilyMember
  | none => none
  | some l => findNodeL t l

end

/-- The local content of a node: its display fields together with the ids
of its immediate parents (in order) and of its spouse.  Two trees that
agree on `findNode`-content for every id agree on everything except the
inner structure of subtrees, which is covered by recursion. -/
structure NodeContent where
  id : String
  name : String
  year : String
  imageUrl : String
  relationship : Option String
  parentIds : Option (List String)
  spouseId : Option String
deriving DecidableEq

/-- Read off the local content of a node. -/
def contentOf : FamilyMember → NodeContent
  | .mk i n y img r ps sp =>
    ⟨i, n, y, img, r, ps.map (fun l => l.map FamilyMember.id), sp.map FamilyMember.id⟩

/-- One step of the 32-bit FNV-1a loop (source: `LegacyTree.tsx`,
`getRandomOffset`): xor the hash with a character code, multiply by the FNV
prime `0x01000193`, truncated to 32 bits. -/
def fnvStep (h c : Nat) : Nat := (Nat.xor h c) * 16777619 % 4294967296

/-- The 32-bit hash of a string, starting from the FNV offset basis
`0x811c9dc5`, folding `fnvStep` over the character codes, as in
`getRandomOffset`'s loop followed by the unsigned coercion `h >>>= 0`. -/
def fnvHash (s : String) : Nat :=
  s.data.foldl (fun h c => fnvStep h c.toNat) 2166136261

/-- Deterministic pseudo-random offset in [-1, 1] (source: `LegacyTree.tsx`,
`getRandomOffset`): hash `id + seedStr`, divide by 2^32 into [0, 1), shift
and scale to [-1, 1).  All values are dyadic rationals, so the JavaScript
float arithmetic is exact and `ℚ` models it faithfully. -/
def getRandomOffset (id seedStr : String) : ℚ :=
  ((fnvHash (id ++ seedStr) : ℚ) / 4294967296 - 1/2) * 2

/-- A positioned layout node: the fields of a d3 hierarchy point node that
`perturbNodes` reads and writes (`data.id`, `depth`, `x`, `y`). -/
structure LayoutNode where
  id : String
  depth : Nat
  x : ℚ
  y : ℚ
deriving DecidableEq

/-- Per-node positional perturbation (source: `LegacyTree.tsx`,
`perturbNodes`): jitter magnitude is suppressed at depth 0, horizontal
wobble is `getRandomOffset(id, 'x') * 20`, vertical wobble is
`getRandomOffset(id, 'y') * 15`. -/
def perturbNodes (nodes : List LayoutNode) : List LayoutNode :=
  nodes.map (fun node =>
    let magnitude : ℚ := if node.depth = 0 then 0 else 1
    let ox := getRandomOffset node.id "x" * 20 * magnitude
    let oy := getRandomOffset node.id "y" * 15 * magnitude
    { node with x := node.x + ox, y := node.y + oy })

/-- The fields of an adjacent layout node that the separation callback
reads: presence of a spouse (`a.data.spouse`) and the optional
pre-computed expanded spouse sub-tree width (`a.data.spouseTreeWidth`). -/
structure SepNode where
  spouse : Bool
  spouseTreeWidth : Option ℚ

/-- The custom sibling separation of the tree layout (source:
`LegacyTree.tsx`, the `.separation((a, b) => ...)` callback, identical in
the main layout and in `calculateSpouseTreeLayout`): base 1.1 for siblings
sharing a parent, 1.3 otherwise; plus 0.8 for each of the two nodes that
has a spouse; plus the attached expanded spouse sub-tree widths converted
from pixels to node slots of 270. -/
def separationFn (sameParent : Bool) (a b : SepNode) : ℚ :=
  let aSpouseWidth := a.spouseTreeWidth.getD 0
  let bSpouseWidth := b.spouseTreeWidth.getD 0
  let extraSpace := (aSpouseWidth + bSpouseWidth) / 270
  let sep : ℚ := if sameParent then 1.1 else 1.3
  let sep := if a.spouse then sep + 0.8 else sep
  let sep := if b.spouse then sep + 0.8 else sep
  sep + extraSpace

/-- The spouse sub-tree expansion toggle (source: `LegacyTree.tsx`,
`toggleSpouse`): copy the expansion set, remove the id if present,
otherwise add it. -/
def toggleSpouse (expandedSpouseIds : Finset String) (id : String) : Finset String :=
  if id ∈ expandedSpouseIds then expandedSpouseIds.erase id
  else insert id expandedSpouseIds

/-- A concrete patch used to instantiate the field-update claim. -/
def witnessPatch : Patch := ⟨some "Eleanor Updated", none, none, some "Mother of Samuel"⟩

/-- The `p2` node of the seed dataset (Arthur Legacy), used to instantiate
the add-ancestor and add-spouse claims. -/
def arthurNode : FamilyMember :=
  .mk "p2" "Arthur Legacy" "1928" "https://picsum.photos/id/1025/200/200" (some "Father")
    (some []) none

/-- C3: for every tree and id, if the computed degree exceeds 1 or the id is
the root's id, the delete request is rejected and the resulting tree is the
unchanged input; in particular deleting the root id is always rejected. -/
theorem deleteMember_rejected (T : FamilyMember) (id : String)
    (h : 1 < calculateDegree T id ∨ id = T.id) :
    handleDeleteMember T id = T := by
  by_cases hid : id = T.id
  · simp [handleDeleteMember, hid]
  · have hd : 1 < calculateDegree T id := h.resolve_right hid
    simp [handleDeleteMember, hid, hd]

/-- Witness for C3: deleting the root id of the seed dataset is rejected
(and its degree is irrelevant to the rejection). -/
theorem deleteMember_rejected_witness :
    handleDeleteMember INITIAL_DATA "root" = INITIAL_DATA :=
  deleteMember_rejected INITIAL_DATA "root" (Or.inr (by decide))

/-- C1 counterexample: on the seed dataset the degree of `p1` is not 1, and
the delete request for `p1` does not remove Eleanor Rigby or Father Rigby —
both ids are still present afterwards. -/
theorem seed_p1_delete_blocked_counterexample :
    ¬ (calculateDegree INITIAL_DATA "p1" = 1) ∧
      containsId "p1" (handleDeleteMember INITIAL_DATA "p1") = true ∧
      containsId "gp1" (handleDeleteMember INITIAL_DATA "p1") = true := by
  refine ⟨by decide, by decide, by decide⟩

/-- C1 amended: on the seed dataset the degree of `p1` is 2 (one incoming
reference from the root's parents array plus one outgoing parents edge to
`gp1`), so the delete request for `p1` is blocked by the degree guard and
the tree is returned unchanged. -/
theorem seed_p1_delete_blocked :
    calculateDegree INITIAL_DATA "p1" = 2 ∧
      handleDeleteMember INITIAL_DATA "p1" = INITIAL_DATA := by
  constructor
  · decide
  · rfl

/-- C2 counterexample: on the seed dataset the degree calculator applied to
`p2` does not return 2. -/
theorem seed_p2_degree_counterexample :
    ¬ (calculateDegree INITIAL_DATA "p2" = 2) := by decide

/-- C2 amended: on the seed dataset the degree calculator applied to `p2`
(Arthur Legacy: empty parents list, no spouse, referenced once from the
root's parents array) returns exactly 1. -/
theorem seed_p2_degree :
    calculateDegree INITIAL_DATA "p2" = 1 := by decide

/-- C8: the per-id jitter applied by the layout pass is a pure function of
the node's id and its depth flag, independent of the node's coordinates, of
the other nodes in the list, of its position in the list and of which call
applied it: any two nodes with the same id and depth, in any two
`perturbNodes` invocations, receive identical x and y offsets.  Hence
re-running the layout on the identical (tree, expansion set) pair
reproduces identical coordinates, jitter included. -/
theorem perturbNodes_deterministic (ns ms : List LayoutNode) (i j : Nat)
    (hi : i < ns.length) (hj : j < ms.length)
    (hi' : i < (perturbNodes ns).length) (hj' : j < (perturbNodes ms).length)
    (hid : (ns.get ⟨i, hi⟩).id = (ms.get ⟨j, hj⟩).id)
    (hdep : (ns.get ⟨i, hi⟩).depth = (ms.get ⟨j, hj⟩).depth) :
    ((perturbNodes ns).get ⟨i, hi'⟩).x - (ns.get ⟨i, hi⟩).x
      = ((perturbNodes ms).get ⟨j, hj'⟩).x - (ms.get ⟨j, hj⟩).x ∧
    ((perturbNodes ns).get ⟨i, hi'⟩).y - (ns.get ⟨i, hi⟩).y
      = ((perturbNodes ms).get ⟨j, hj'⟩).y - (ms.get ⟨j, hj⟩).y := by
  have h1 : (perturbNodes ns).get ⟨i, hi'⟩ =
      (fun node : LayoutNode =>
        let magnitude : ℚ := if node.depth = 0 then 0 else 1
        let ox := getRandomOffset node.id "x" * 20 * magnitude
        let oy := getRandomOffset node.id "y" * 15 * magnitude
        { node with x := node.x + ox, y := node.y + oy }) (ns.get ⟨i, hi⟩) := by
    simp [perturbNodes]
  have h2 : (perturbNodes ms).get ⟨j, hj'⟩ =
      (fun node : LayoutNode =>
        let magnitude : ℚ := if node.depth = 0 then 0 else 1
        let ox := getRandomOffset node.id "x" * 20 * magnitude
        let oy := getRandomOffset node.id "y" * 15 * magnitude
        { node with x := node.x + ox, y := node.y + oy }) (ms.get ⟨j, hj⟩) := by
    simp [perturbNodes]
  rw [h1, h2]
  simp only [hid, hdep]
  constructor <;> ring

/-- Witness for C8: a node with id "alpha" at depth 1 receives the same x
and y jitter whether it sits first in a two-node list at the origin or
alone in a singleton list at another position. -/
theorem perturbNodes_deterministic_witness :
    ((perturbNodes [⟨"alpha", 1, 0, 0⟩, ⟨"beta", 2, 1, 1⟩]).get ⟨0, by decide⟩).x
        - (([⟨"alpha", 1, 0, 0⟩, ⟨"beta", 2, 1, 1⟩] : List LayoutNode).get ⟨0, by decide⟩).x
      = ((perturbNodes [⟨"alpha", 1, 37, 5⟩]).get ⟨0, by decide⟩).x
        - (([⟨"alpha", 1, 37, 5⟩] : List LayoutNode).get ⟨0, by decide⟩).x ∧
    ((perturbNodes [⟨"alpha", 1, 0, 0⟩, ⟨"beta", 2, 1, 1⟩]).get ⟨0, by decide⟩).y
        - (([⟨"alpha", 1, 0, 0⟩, ⟨"beta", 2, 1, 1⟩] : List LayoutNode).get ⟨0, by decide⟩).y
      = ((perturbNodes [⟨"alpha", 1, 37, 5⟩]).get ⟨0, by decide⟩).y
        - (([⟨"alpha", 1, 37, 5⟩] : List LayoutNode).get ⟨0, by decide⟩).y :=
  perturbNodes_deterministic [⟨"alpha", 1, 0, 0⟩, ⟨"beta", 2, 1, 1⟩] [⟨"alpha", 1, 37, 5⟩]
    0 0 (by decide) (by decide) (by decide) (by decide) rfl rfl

/-- C9: the separation function is strictly monotone in spouse presence:
for every neighbour `b`, every shared-parent flag and every attached
sub-tree width, a node with a spouse is separated from its neighbour by
exactly the fixed increment 0.8 more than the otherwise-identical node
without a spouse — in particular strictly more. -/
theorem separationFn_spouse_monotone (sameParent : Bool) (w : Option ℚ) (b : SepNode) :
    separationFn sameParent ⟨true, w⟩ b = separationFn sameParent ⟨false, w⟩ b + 0.8 ∧
    separationFn sameParent ⟨false, w⟩ b < separationFn sameParent ⟨true, w⟩ b := by
  obtain ⟨bs, bw⟩ := b
  have key : separationFn sameParent ⟨true, w⟩ ⟨bs, bw⟩
      = separationFn sameParent ⟨false, w⟩ ⟨bs, bw⟩ + 0.8 := by
    cases sameParent <;> cases bs <;> simp [separationFn] <;> ring
  refine ⟨key, ?_⟩
  rw [key]
  linarith

/-- C10: the expansion toggle is an exact membership flip and an
involution: toggling an id present in the set yields the set minus that id,
toggling an absent id yields the set plus that id, membership of every
other id is unchanged, and toggling the same id twice restores the original
set. -/
theorem toggleSpouse_flip_involution (S : Finset String) (id : String) :
    (id ∈ S → toggleSpouse S id = S.erase id) ∧
    (id ∉ S → toggleSpouse S id = insert id S) ∧
    (∀ j, j ≠ id → (j ∈ toggleSpouse S id ↔ j ∈ S)) ∧
    toggleSpouse (toggleSpouse S id) id = S := by
  by_cases h : id ∈ S
  · refine ⟨fun _ => by simp [toggleSpouse, h], fun h' => absurd h h', ?_, ?_⟩
    · intro j hj
      simp [toggleSpouse, h, hj]
    · have h1 : toggleSpouse S id = S.erase id := by simp [toggleSpouse, h]
      rw [h1]
      have h2 : id ∉ S.erase id := Finset.not_mem_erase id S
      simp [toggleSpouse, h2, Finset.insert_erase h]
  · refine ⟨fun h' => absurd h' h, fun _ => by simp [toggleSpouse, h], ?_, ?_⟩
    · intro j hj
      simp [toggleSpouse, h, hj]
    · have h1 : toggleSpouse S id = insert id S := by simp [toggleSpouse, h]
      rw [h1]
      have h2 : id ∈ insert id S := Finset.mem_insert_self id S
      simp [toggleSpouse, h2, Finset.erase_insert h]

/-- Witness for C10: toggling "a" twice on the set containing "a" and "c"
restores the set, and the toggle does not change membership of "c". -/
theorem toggleSpouse_flip_involution_witness :
    toggleSpouse (toggleSpouse {"a", "c"} "a") "a" = ({"a", "c"} : Finset String) ∧
    ("c" ∈ toggleSpouse {"a", "c"} "a" ↔ "c" ∈ ({"a", "c"} : Finset String)) :=
  ⟨(toggleSpouse_flip_involution {"a", "c"} "a").2.2.2,
   (toggleSpouse_flip_involution {"a", "c"} "a").2.2.1 "c" (by decide)⟩

/-- A node's own id is among the ids of its tree. -/
theorem id_mem_idsOf (m : FamilyMember) : m.id ∈ idsOf m := by
  cases m with
  | mk i n y img r ps sp => simp [idsOf, FamilyMember.id]

/-- Split an absence hypothesis at a node into its components. -/
theorem not_mem_idsOf_parts {t i n y img : String} {rel : Option String}
    {ps : Option (List FamilyMember)} {sp : Option FamilyMember}
    (h : t ∉ idsOf (.mk i n y img rel ps sp)) :
    ¬ (i = t) ∧ t ∉ idsOfSp sp ∧ t ∉ idsOfLO ps := by
  simp only [idsOf, List.mem_cons, List.mem_append, not_or] at h
  exact ⟨fun he => h.1 he.symm, h.2.1, h.2.2⟩

mutual

/-- Field update with an absent target id is the identity. -/
theorem updateNode_noop (t : String) (u : Patch) :
    ∀ m : FamilyMember, t ∉ idsOf m → updateNode t u m = m
  | .mk i n y img r ps sp => fun h => by
    obtain ⟨hi, hsp, hps⟩ := not_mem_idsOf_parts h
    rw [updateNode, if_neg hi, updateNodeSp_noop t u sp hsp, updateNodeLO_noop t u ps hps]

/-- `updateNode_noop` for the optional spouse slot. -/
theorem updateNodeSp_noop (t : String) (u : Patch) :
    ∀ sp : Option FamilyMember, t ∉ idsOfSp sp → updateNodeSp t u sp = sp
  | none => fun _ => rfl
  | some s => fun h => by
    have h' : t ∉ idsOf s := by simpa [idsOfSp] using h
    have hid : ¬ (s.id = t) := fun he => h' (he ▸ id_mem_idsOf s)
    rw [updateNodeSp, if_neg hid, updateNode_noop t u s h']

/-- `updateNode_noop` for a parents array. -/
theorem updateNodeL_noop (t : String) (u : Patch) :
    ∀ l : List FamilyMember, t ∉ idsOfL l → updateNodeL t u l = l
  | [] => fun _ => rfl
  | p :: r => fun h => by
    have hp : t ∉ idsOf p := fun hx => h (by simp [idsOfL, hx])
    have hr : t ∉ idsOfL r := fun hx => h (by simp [idsOfL, hx])
    rw [updateNodeL, updateNode_noop t u p hp, updateNodeL_noop t u r hr]

/-- `updateNode_noop` for an optional parents array. -/
theorem updateNodeLO_noop (t : String) (u : Patch) :
    ∀ ps : Option (List FamilyMember), t ∉ idsOfLO ps → updateNodeLO t u ps = ps
  | none => fun _ => rfl
  | some l => fun h => by
    have h' : t ∉ idsOfL l := by simpa [idsOfLO] using h
    rw [updateNodeLO, updateNodeL_noop t u l h']

end

mutual

/-- Adding an ancestor at an absent target id is the identity. -/
theorem addParent_noop (c t : String) :
    ∀ m : FamilyMember, t ∉ idsOf m → addParentToNode c t m = m
  | .mk i n y img r ps sp => fun h => by
    obtain ⟨hi, hsp, hps⟩ := not_mem_idsOf_parts h
    simp only [addParentToNode, if_neg hi, addParentSp_noop c t sp hsp,
      addParentLO_noop c t ps hps]

/-- `addParent_noop` for the optional spouse slot. -/
theorem addParentSp_noop (c t : String) :
    ∀ sp : Option FamilyMember, t ∉ idsOfSp sp → addParentSp c t sp = sp
  | none => fun _ => rfl
  | some s => fun h => by
    have h' : t ∉ idsOf s := by simpa [idsOfSp] using h
    rw [addParentSp, addParent_noop c t s h']

/-- `addParent_noop` for a parents array. -/
theorem addParentL_noop (c t : String) :
    ∀ l : List FamilyMember, t ∉ idsOfL l → addParentL c t l = l
  | [] => fun _ => rfl
  | p :: r => fun h => by
    have hp : t ∉ idsOf p := fun hx => h (by simp [idsOfL, hx])
    have hr : t ∉ idsOfL r := fun hx => h (by simp [idsOfL, hx])
    rw [addParentL, addParent_noop c t p hp, addParentL_noop c t r hr]

/-- `addParent_noop` for an optional parents array. -/
theorem addParentLO_noop (c t : String) :
    ∀ ps : Option (List FamilyMember), t ∉ idsOfLO ps → addParentLO c t ps = ps
  | none => fun _ => rfl
  | some l => fun h => by
    have h' : t ∉ idsOfL l := by simpa [idsOfLO] using h
    rw [addParentLO, addParentL_noop c t l h']

end

mutual

/-- Adding a spouse at an absent target id is the identity and raises no
alert. -/
theorem addSpouse_noop (c t : String) :
    ∀ m : FamilyMember, t ∉ idsOf m → addSpouseToNode c t m = (m, false)
  | .mk i n y img r ps sp => fun h => by
    obtain ⟨hi, hsp, hps⟩ := not_mem_idsOf_parts h
    simp only [addSpouseToNode, if_neg hi, addSpouseSp_noop c t sp hsp,
      addSpouseLO_noop c t ps hps, Bool.or_self]

/-- `addSpouse_noop` for the optional spouse slot. -/
theorem addSpouseSp_noop (c t : String) :
    ∀ sp : Option FamilyMember, t ∉ idsOfSp sp → addSpouseSp c t sp = (sp, false)
  | none => fun _ => rfl
  | some s => fun h => by
    have h' : t ∉ idsOf s := by simpa [idsOfSp] using h
    rw [addSpouseSp, addSpouse_noop c t s h']

/-- `addSpouse_noop` for a parents array. -/
theorem addSpouseL_noop (c t : String) :
    ∀ l : List FamilyMember, t ∉ idsOfL l → addSpouseL c t l = (l, false)
  | [] => fun _ => rfl
  | p :: r => fun h => by
    have hp : t ∉ idsOf p := fun hx => h (by simp [idsOfL, hx])
    have hr : t ∉ idsOfL r := fun hx => h (by simp [idsOfL, hx])
    rw [addSpouseL, addSpouse_noop c t p hp, addSpouseL_noop c t r hr]
    rfl

/-- `addSpouse_noop` for an optional parents array. -/
theorem addSpouseLO_noop (c t : String) :
    ∀ ps : Option (List FamilyMember), t ∉ idsOfLO ps → addSpouseLO c t ps = (ps, false)
  | none => fun _ => rfl
  | some l => fun h => by
    have h' : t ∉ idsOfL l := by simpa [idsOfLO] using h
    rw [addSpouseLO, addSpouseL_noop c t l h']

end

/-- C5: mutations targeting an id absent from the tree are silent no-ops:
field update, add-ancestor and add-spouse all return the original tree
unchanged, and add-spouse raises no alert. -/
theorem mutation_missing_id_noop (T : FamilyMember) (t c c' : String) (u : Patch)
    (h : t ∉ idsOf T) :
    updateNode t u T = T ∧
    addParentToNode c t T = T ∧
    addSpouseToNode c' t T = (T, false) := by
  exact ⟨updateNode_noop t u T h, addParent_noop c t T h, addSpouse_noop c' t T h⟩

/-- Witness for C5: the id "nobody" is absent from the seed dataset, and
all three mutations leave it untouched without an alert. -/
theorem mutation_missing_id_noop_witness :
    updateNode "nobody" witnessPatch INITIAL_DATA = INITIAL_DATA ∧
    addParentToNode "newA" "nobody" INITIAL_DATA = INITIAL_DATA ∧
    addSpouseToNode "newS" "nobody" INITIAL_DATA = (INITIAL_DATA, false) :=
  mutation_missing_id_noop INITIAL_DATA "nobody" "newA" "newS" witnessPatch (by decide)

/-- `idsOfL` distributes over list append. -/
theorem idsOfL_append (l₁ l₂ : List FamilyMember) :
    idsOfL (l₁ ++ l₂) = idsOfL l₁ ++ idsOfL l₂ := by
  induction l₁ with
  | nil => simp [idsOfL]
  | cons p r ih => simp [idsOfL, ih]

/-- `findNodeL` scans an appended list left to right. -/
theorem findNodeL_append (j : String) (l₁ l₂ : List FamilyMember) :
    findNodeL j (l₁ ++ l₂)
      = match findNodeL j l₁ with
        | some q => some q
        | none => findNodeL j l₂ := by
  induction l₁ with
  | nil => simp [findNodeL]
  | cons p r ih =>
    simp only [List.cons_append, findNodeL]
    cases findNode j p with
    | some q => rfl
    | none => exact ih

mutual

/-- A successful lookup returns a node carrying the looked-up id, proves
the id is in the tree, and returns a subtree (its ids are among the tree's
ids). -/
theorem findNode_some_spec (j : String) :
    ∀ m r, findNode j m = some r →
      r.id = j ∧ j ∈ idsOf m ∧ (∀ x, x ∈ idsOf r → x ∈ idsOf m)
  | .mk i n y img rel ps sp, r => fun h => by
    rw [findNode] at h
    by_cases hij : i = j
    · rw [if_pos hij] at h
      obtain rfl : FamilyMember.mk i n y img rel ps sp = r := by
        simpa using h
      exact ⟨by simp [FamilyMember.id, hij], by simp [idsOf, hij], fun x hx => hx⟩
    · rw [if_neg hij] at h
      cases hsp : findNodeSp j sp with
      | some q =>
        rw [hsp] at h
        obtain rfl : q = r := by simpa using h
        obtain ⟨h1, h2, h3⟩ := findNodeSp_some_spec j sp q hsp
        exact ⟨h1, by simp [idsOf, h2],
          fun x hx => by
            simp only [idsOf, List.mem_cons, List.mem_append]
            exact Or.inr (Or.inl (h3 x hx))⟩
      | none =>
        rw [hsp] at h
        obtain ⟨h1, h2, h3⟩ := findNodeLO_some_spec j ps r h
        exact ⟨h1, by simp [idsOf, h2],
          fun x hx => by
            simp only [idsOf, List.mem_cons, List.mem_append]
            exact Or.inr (Or.inr (h3 x hx))⟩

/-- `findNode_some_spec` through an optional spouse. -/
theorem findNodeSp_some_spec (j : String) :
    ∀ sp r, findNodeSp j sp = some r →
      r.id = j ∧ j ∈ idsOfSp sp ∧ (∀ x, x ∈ idsOf r → x ∈ idsOfSp sp)
  | none, r => fun h => by simp [findNodeSp] at h
  | some s, r => fun h => by
    rw [findNodeSp] at h
    obtain ⟨h1, h2, h3⟩ := findNode_some_spec j s r h
    exact ⟨h1, by simpa [idsOfSp] using h2, fun x hx => by simpa [idsOfSp] using h3 x hx⟩

/-- `findNode_some_spec` through a parents array. -/
theorem findNodeL_some_spec (j : String) :
    ∀ l r, findNodeL j l = some r →
      r.id = j ∧ j ∈ idsOfL l ∧ (∀ x, x ∈ idsOf r → x ∈ idsOfL l)
  | [], r => fun h => by simp [findNodeL] at h
  | p :: rest, r => fun h => by
    rw [findNodeL] at h
    cases hp : findNode j p with
    | some q =>
      rw [hp] at h
      obtain rfl : q = r := by simpa using h
      obtain ⟨h1, h2, h3⟩ := findNode_some_spec j p q hp
      exact ⟨h1, by simp [idsOfL, h2], fun x hx => by
        simp only [idsOfL, List.mem_append]
        exact Or.inl (h3 x hx)⟩
    | none =>
      rw [hp] at h
      obtain ⟨h1, h2, h3⟩ := findNodeL_some_spec j rest r h
      exact ⟨h1, by simp [idsOfL, h2], fun x hx => by
        simp only [idsOfL, List.mem_append]
        exact Or.inr (h3 x hx)⟩

/-- `findNode_some_spec` through an optional parents array. -/
theorem findNodeLO_some_spec (j : String) :
    ∀ ps r, findNodeLO j ps = some r →
      r.id = j ∧ j ∈ idsOfLO ps ∧ (∀ x, x ∈ idsOf r → x ∈ idsOfLO ps)
  | none, r => fun h => by simp [findNodeLO] at h
  | some l, r => fun h => by
    rw [findNodeLO] at h
    obtain ⟨h1, h2, h3⟩ := findNodeL_some_spec j l r h
    exact ⟨h1, by simpa [idsOfLO] using h2, fun x hx => by simpa [idsOfLO] using h3 x hx⟩

end

mutual

/-- A present id is always found. -/
theorem findNode_isSome (j : String) :
    ∀ m, j ∈ idsOf m → (findNode j m).isSome = true
  | .mk i n y img rel ps sp => fun h => by
    rw [findNode]
    by_cases hij : i = j
    · simp [if_pos hij]
    · rw [if_neg hij]
      have h' : j ∈ idsOfSp sp ∨ j ∈ idsOfLO ps := by
        simp only [idsOf, List.mem_cons, List.mem_append] at h
        rcases h with h | h
        · exact absurd h.symm hij
        · exact h
      cases hsp : findNodeSp j sp with
      | some q => simp
      | none =>
        rcases h' with h' | h'
        · have := findNodeSp_isSome j sp h'
          rw [hsp] at this
          simp at this
        · exact findNodeLO_isSome j ps h'

/-- `findNode_isSome` through an optional spouse. -/
theorem findNodeSp_isSome (j : String) :
    ∀ sp, j ∈ idsOfSp sp → (findNodeSp j sp).isSome = true
  | none => fun h => by simp [idsOfSp] at h
  | some s => fun h => by
    rw [findNodeSp]
    exact findNode_isSome j s (by simpa [idsOfSp] using h)

/-- `findNode_isSome` through a parents array. -/
theorem findNodeL_isSome (j : String) :
    ∀ l, j ∈ idsOfL l → (findNodeL j l).isSome = true
  | [] => fun h => by simp [idsOfL] at h
  | p :: rest => fun h => by
    rw [findNodeL]
    cases hp : findNode j p with
    | some q => simp
    | none =>
      have h' : j ∈ idsOf p ∨ j ∈ idsOfL rest := by
        simpa [idsOfL] using h
      rcases h' with h' | h'
      · have := findNode_isSome j p h'
        rw [hp] at this
        simp at this
      · exact findNodeL_isSome j rest h'

/-- `findNode_isSome` through an optional parents array. -/
theorem findNodeLO_isSome (j : String) :
    ∀ ps, j ∈ idsOfLO ps → (findNodeLO j ps).isSome = true
  | none => fun h => by simp [idsOfLO] at h
  | some l => fun h => by
    rw [findNodeLO]
    exact findNodeL_isSome j l (by simpa [idsOfLO] using h)

end

/-- An absent id is never found. -/
theorem findNode_eq_none {j : String} {m : FamilyMember} (h : j ∉ idsOf m) :
    findNode j m = none := by
  cases hf : findNode j m with
  | none => rfl
  | some r => exact absurd (findNode_some_spec j m r hf).2.1 h

/-- An absent id is never found (optional spouse form). -/
theorem findNodeSp_eq_none {j : String} {sp : Option FamilyMember} (h : j ∉ idsOfSp sp) :
    findNodeSp j sp = none := by
  cases hf : findNodeSp j sp with
  | none => rfl
  | some r => exact absurd (findNodeSp_some_spec j sp r hf).2.1 h

/-- An absent id is never found (parents array form). -/
theorem findNodeL_eq_none {j : String} {l : List FamilyMember} (h : j ∉ idsOfL l) :
    findNodeL j l = none := by
  cases hf : findNodeL j l with
  | none => rfl
  | some r => exact absurd (findNodeL_some_spec j l r hf).2.1 h

/-- An absent id is never found (optional parents array form). -/
theorem findNodeLO_eq_none {j : String} {ps : Option (List FamilyMember)}
    (h : j ∉ idsOfLO ps) : findNodeLO j ps = none := by
  cases hf : findNodeLO j ps with
  | none => rfl
  | some r => exact absurd (findNodeLO_some_spec j ps r hf).2.1 h

/-- An unsuccessful lookup means the id is absent. -/
theorem not_mem_of_findNodeSp_eq_none {j : String} {sp : Option FamilyMember}
    (h : findNodeSp j sp = none) : j ∉ idsOfSp sp := by
  intro hmem
  have := findNodeSp_isSome j sp hmem
  rw [h] at this
  simp at this

/-- Split a no-duplicates hypothesis at a node into its components. -/
theorem nodup_parts {i n y img : String} {rel : Option String}
    {ps : Option (List FamilyMember)} {sp : Option FamilyMember}
    (h : (idsOf (.mk i n y img rel ps sp)).Nodup) :
    i ∉ idsOfSp sp ∧ i ∉ idsOfLO ps ∧ (idsOfSp sp).Nodup ∧ (idsOfLO ps).Nodup ∧
      (∀ x, x ∈ idsOfSp sp → x ∉ idsOfLO ps) := by
  simp only [idsOf, List.nodup_cons, List.mem_append, List.nodup_append] at h
  exact ⟨fun hx => h.1 (Or.inl hx), fun hx => h.1 (Or.inr hx), h.2.1, h.2.2.1,
    fun x hx hx2 => h.2.2.2 hx hx2⟩

/-- Split a no-duplicates hypothesis on a parents array at its head. -/
theorem nodupL_parts {p : FamilyMember} {rest : List FamilyMember}
    (h : (idsOfL (p :: rest)).Nodup) :
    (idsOf p).Nodup ∧ (idsOfL rest).Nodup ∧ (∀ x, x ∈ idsOf p → x ∉ idsOfL rest) := by
  rw [idsOfL, List.nodup_append] at h
  exact ⟨h.1, h.2.1, fun x hx hx2 => h.2.2 hx hx2⟩

/-- The patch merge keeps the id. -/
theorem applyPatch_id (u : Patch) (m : FamilyMember) : (applyPatch u m).id = m.id := by
  cases m with
  | mk i n y img rel ps sp => rfl

/-- The patch merge keeps the set of ids of the tree. -/
theorem idsOf_applyPatch (u : Patch) (m : FamilyMember) : idsOf (applyPatch u m) = idsOf m := by
  cases m with
  | mk i n y img rel ps sp => rfl

/-- At the node carrying the target id, the update is exactly the patch
merge. -/
theorem updateNode_matched (t : String) (u : Patch) (m : FamilyMember)
    (h : m.id = t) : updateNode t u m = applyPatch u m := by
  cases m with
  | mk i n y img rel ps sp =>
    simp only [FamilyMember.id] at h
    rw [updateNode, if_pos h]

/-- The update keeps the id of the node it is applied to. -/
theorem updateNode_id (t : String) (u : Patch) (m : FamilyMember) :
    (updateNode t u m).id = m.id := by
  cases m with
  | mk i n y img rel ps sp =>
    by_cases hit : i = t
    · rw [updateNode, if_pos hit, applyPatch_id]
    · rw [updateNode, if_neg hit]
      rfl

/-- The source's direct-merge shortcut for a matching spouse agrees with
recursing into the spouse: the spouse slot update is the mapped update. -/
theorem updateNodeSp_eq (t : String) (u : Patch) (sp : Option FamilyMember) :
    updateNodeSp t u sp = sp.map (updateNode t u) := by
  cases sp with
  | none => rfl
  | some s =>
    by_cases h : s.id = t
    · rw [updateNodeSp, if_pos h, Option.map, updateNode_matched t u s h]
    · rw [updateNodeSp, if_neg h, Option.map]

mutual

/-- Field update preserves the tree's ids (node form). -/
theorem idsOf_updateNode (t : String) (u : Patch) :
    ∀ m, idsOf (updateNode t u m) = idsOf m
  | .mk i n y img rel ps sp => by
    by_cases hit : i = t
    · rw [updateNode, if_pos hit, idsOf_applyPatch]
    · rw [updateNode, if_neg hit, idsOf, idsOf,
        idsOfSp_updateNode t u sp, idsOfLO_updateNode t u ps]

/-- Field update preserves the tree's ids (spouse slot form). -/
theorem idsOfSp_updateNode (t : String) (u : Patch) :
    ∀ sp, idsOfSp (updateNodeSp t u sp) = idsOfSp sp
  | none => rfl
  | some s => by
    rw [updateNodeSp_eq, Option.map, idsOfSp, idsOfSp, idsOf_updateNode t u s]

/-- Field update preserves the tree's ids (parents array form). -/
theorem idsOfL_updateNode (t : String) (u : Patch) :
    ∀ l, idsOfL (updateNodeL t u l) = idsOfL l
  | [] => rfl
  | p :: rest => by
    rw [updateNodeL, idsOfL, idsOfL, idsOf_updateNode t u p, idsOfL_updateNode t u rest]

/-- Field update preserves the tree's ids (optional parents array form). -/
theorem idsOfLO_updateNode (t : String) (u : Patch) :
    ∀ ps, idsOfLO (updateNodeLO t u ps) = idsOfLO ps
  | none => rfl
  | some l => by
    rw [updateNodeLO, idsOfLO, idsOfLO, idsOfL_updateNode t u l]

end

mutual

/-- On a duplicate-free tree, lookup commutes with field update: the node
found after the update is the update of the node found before. -/
theorem findNode_updateNode (j t : String) (u : Patch) :
    ∀ m, (idsOf m).Nodup →
      findNode j (updateNode t u m) = (findNode j m).map (updateNode t u)
  | .mk i n y img rel ps sp => fun hnd => by
    obtain ⟨hisp, hips, hndsp, hndps, _⟩ := nodup_parts hnd
    by_cases hit : i = t
    · rw [updateNode, if_pos hit]
      by_cases hij : i = j
      · have h1 : findNode j (applyPatch u (.mk i n y img rel ps sp))
            = some (applyPatch u (.mk i n y img rel ps sp)) := by
          rw [applyPatch, findNode, if_pos hij]
        rw [h1, findNode, if_pos hij, Option.map,
          updateNode_matched t u (.mk i n y img rel ps sp) (by simpa [FamilyMember.id])]
      · rw [applyPatch, findNode, if_neg hij, findNode, if_neg hij]
        subst hit
        cases hspf : findNodeSp j sp with
        | some q =>
          have hq : i ∉ idsOf q := fun hx =>
            hisp ((findNodeSp_some_spec j sp q hspf).2.2 i hx)
          rw [Option.map, updateNode_noop i u q hq]
        | none =>
          cases hlof : findNodeLO j ps with
          | some q =>
            have hq : i ∉ idsOf q := fun hx =>
              hips ((findNodeLO_some_spec j ps q hlof).2.2 i hx)
            rw [Option.map, updateNode_noop i u q hq]
          | none => rfl
    · rw [updateNode, if_neg hit]
      by_cases hij : i = j
      · rw [findNode, if_pos hij, findNode, if_pos hij, Option.map,
          updateNode, if_neg hit]
      · rw [findNode, if_neg hij, findNode, if_neg hij,
          findNodeSp_updateNode j t u sp hndsp]
        cases hspf : findNodeSp j sp with
        | some q => rfl
        | none =>
          rw [Option.map]
          exact findNodeLO_updateNode j t u ps hndps

/-- `findNode_updateNode` for the optional spouse slot. -/
theorem findNodeSp_updateNode (j t : String) (u : Patch) :
    ∀ sp, (idsOfSp sp).Nodup →
      findNodeSp j (updateNodeSp t u sp) = (findNodeSp j sp).map (updateNode t u)
  | none => fun _ => rfl
  | some s => fun hnd => by
    rw [updateNodeSp_eq, Option.map, findNodeSp, findNodeSp]
    exact findNode_updateNode j t u s (by simpa [idsOfSp] using hnd)

/-- `findNode_updateNode` for a parents array. -/
theorem findNodeL_updateNode (j t : String) (u : Patch) :
    ∀ l, (idsOfL l).Nodup →
      findNodeL j (updateNodeL t u l) = (findNodeL j l).map (updateNode t u)
  | [] => fun _ => rfl
  | p :: rest => fun hnd => by
    obtain ⟨hp, hrest, _⟩ := nodupL_parts hnd
    rw [updateNodeL, findNodeL, findNodeL, findNode_updateNode j t u p hp]
    cases findNode j p with
    | some q => rfl
    | none =>
      rw [Option.map]
      exact findNodeL_updateNode j t u rest hrest

/-- `findNode_updateNode` for an optional parents array. -/
theorem findNodeLO_updateNode (j t : String) (u : Patch) :
    ∀ ps, (idsOfLO ps).Nodup →
      findNodeLO j (updateNodeLO t u ps) = (findNodeLO j ps).map (updateNode t u)
  | none => fun _ => rfl
  | some l => fun hnd => by
    rw [updateNodeLO, findNodeLO, findNodeLO]
    exact findNodeL_updateNode j t u l (by simpa [idsOfLO] using hnd)

end

/-- The update keeps the ids of a parents array elementwise. -/
theorem updateNodeL_map_id (t : String) (u : Patch) (l : List FamilyMember) :
    (updateNodeL t u l).map FamilyMember.id = l.map FamilyMember.id := by
  induction l with
  | nil => rfl
  | cons p rest ih => simp [updateNodeL, updateNode_id, ih]

/-- Away from the target id, the update does not change a node's local
content (fields, ordered parent ids, spouse id). -/
theorem contentOf_updateNode_ne (t : String) (u : Patch) (m : FamilyMember)
    (h : ¬ (m.id = t)) : contentOf (updateNode t u m) = contentOf m := by
  cases m with
  | mk i n y img rel ps sp =>
    simp only [FamilyMember.id] at h
    rw [updateNode, if_neg h]
    simp only [contentOf, NodeContent.mk.injEq, true_and]
    refine ⟨?_, ?_⟩
    · cases ps with
      | none => rfl
      | some l => simp [updateNodeLO, updateNodeL_map_id]
    · rw [updateNodeSp_eq]
      cases sp with
      | none => rfl
      | some s => simp [updateNode_id]

/-- The empty patch leaves any node unchanged under the merge. -/
theorem applyPatch_empty (m : FamilyMember) : applyPatch emptyPatch m = m := by
  cases m with
  | mk i n y img rel ps sp => simp [applyPatch, emptyPatch]

mutual

/-- Updating with the empty patch is the identity (node form). -/
theorem updateNode_empty (t : String) :
    ∀ m, updateNode t emptyPatch m = m
  | .mk i n y img rel ps sp => by
    by_cases hit : i = t
    · rw [updateNode, if_pos hit, applyPatch_empty]
    · rw [updateNode, if_neg hit, updateNodeSp_empty t sp, updateNodeLO_empty t ps]

/-- Updating with the empty patch is the identity (spouse slot form). -/
theorem updateNodeSp_empty (t : String) :
    ∀ sp, updateNodeSp t emptyPatch sp = sp
  | none => rfl
  | some s => by
    by_cases h : s.id = t
    · rw [updateNodeSp, if_pos h, applyPatch_empty]
    · rw [updateNodeSp, if_neg h, updateNode_empty t s]

/-- Updating with the empty patch is the identity (parents array form). -/
theorem updateNodeL_empty (t : String) :
    ∀ l, updateNodeL t emptyPatch l = l
  | [] => rfl
  | p :: rest => by
    rw [updateNodeL, updateNode_empty t p, updateNodeL_empty t rest]

/-- Updating with the empty patch is the identity (optional parents array
form). -/
theorem updateNodeLO_empty (t : String) :
    ∀ ps, updateNodeLO t emptyPatch ps = ps
  | none => rfl
  | some l => by
    rw [updateNodeLO, updateNodeL_empty t l]

end

/-- C4: on a duplicate-free tree, the field update by id changes exactly
the node with that id — its local content becomes the patch merge of its
old content, every other id's node keeps its content (fields, parents
order, spouse link), the set of ids is unchanged — and updating with the
empty patch is the identity. -/
theorem updateFields_exact (T : FamilyMember) (t : String) (u : Patch)
    (hnd : (idsOf T).Nodup) (hmem : t ∈ idsOf T) :
    idsOf (updateNode t u T) = idsOf T ∧
    (∀ j, j ≠ t → (findNode j (updateNode t u T)).map contentOf
        = (findNode j T).map contentOf) ∧
    (findNode t (updateNode t u T)).map contentOf
        = (findNode t T).map (fun nd => contentOf (applyPatch u nd)) ∧
    updateNode t emptyPatch T = T := by
  have _ := hmem
  refine ⟨idsOf_updateNode t u T, ?_, ?_, updateNode_empty t T⟩
  · intro j hj
    rw [findNode_updateNode j t u T hnd]
    cases hf : findNode j T with
    | none => rfl
    | some r =>
      have hid : r.id = j := (findNode_some_spec j T r hf).1
      rw [Option.map, Option.map, contentOf_updateNode_ne t u r (by rw [hid]; exact hj)]
      rfl
  · rw [findNode_updateNode t t u T hnd]
    cases hf : findNode t T with
    | none => rfl
    | some r =>
      have hid : r.id = t := (findNode_some_spec t T r hf).1
      rw [Option.map, Option.map, updateNode_matched t u r hid]
      rfl

/-- Witness for C4: updating `p1` in the seed dataset patches exactly
Eleanor Rigby's content, keeps `p2`'s content and the id list, and the
empty patch is a no-op. -/
theorem updateFields_exact_witness :
    idsOf (updateNode "p1" witnessPatch INITIAL_DATA) = idsOf INITIAL_DATA ∧
    (findNode "p2" (updateNode "p1" witnessPatch INITIAL_DATA)).map contentOf
        = (findNode "p2" INITIAL_DATA).map contentOf ∧
    (findNode "p1" (updateNode "p1" witnessPatch INITIAL_DATA)).map contentOf
        = (findNode "p1" INITIAL_DATA).map (fun nd => contentOf (applyPatch witnessPatch nd)) ∧
    updateNode "p1" emptyPatch INITIAL_DATA = INITIAL_DATA :=
  have h := updateFields_exact INITIAL_DATA "p1" witnessPatch (by decide) (by decide)
  ⟨h.1, h.2.1 "p2" (by decide), h.2.2.1, h.2.2.2⟩

/-- The synthetic ancestor's tree consists of its fresh id alone. -/
theorem idsOf_newAncestorNode (c y : String) : idsOf (newAncestorNode c y) = [c] := by
  simp [newAncestorNode, idsOf, idsOfSp, idsOfLO, idsOfL]

/-- Unfolding lemma for `addParentToNode` on an explicit node. -/
theorem addParentToNode_def (c t i n y img : String) (rel : Option String)
    (ps : Option (List FamilyMember)) (sp : Option FamilyMember) :
    addParentToNode c t (.mk i n y img rel ps sp)
      = if i = t then
          .mk i n y img rel
            (some ((match ps with | some l => l | none => []) ++ [newAncestorNode c y])) sp
        else .mk i n y img rel (addParentLO c t ps) (addParentSp c t sp) := by
  rw [addParentToNode.eq_def]

/-- `addParentToNode` keeps the id of the node it is applied to. -/
theorem addParent_id (c t : String) (m : FamilyMember) :
    (addParentToNode c t m).id = m.id := by
  cases m with
  | mk i n y img rel ps sp =>
    rw [addParentToNode_def]
    by_cases hit : i = t
    · rw [if_pos hit]
      rfl
    · rw [if_neg hit]
      rfl

mutual

/-- On a duplicate-free tree, lookup of an id other than the fresh id
commutes with add-ancestor: the node found after the insertion is the
insertion applied to the node found before. -/
theorem findNode_addParent (j c t : String) :
    ∀ m, (idsOf m).Nodup → ¬ (j = c) →
      findNode j (addParentToNode c t m) = (findNode j m).map (addParentToNode c t)
  | .mk i n y img rel ps sp => fun hnd hjc => by
    obtain ⟨hisp, hips, hndsp, hndps, _⟩ := nodup_parts hnd
    by_cases hit : i = t
    · rw [addParentToNode_def, if_pos hit]
      by_cases hij : i = j
      · rw [findNode, if_pos hij, findNode, if_pos hij, Option.map,
          addParentToNode_def, if_pos hit]
      · rw [findNode, if_neg hij, findNode, if_neg hij]
        subst hit
        have hanc : findNode j (newAncestorNode c y) = none :=
          findNode_eq_none (by
            rw [idsOf_newAncestorNode]
            exact fun hx => hjc (by simpa using hx))
        cases hspf : findNodeSp j sp with
        | some q =>
          have hq : i ∉ idsOf q := fun hx =>
            hisp ((findNodeSp_some_spec j sp q hspf).2.2 i hx)
          rw [Option.map, addParent_noop c i q hq]
        | none =>
          cases ps with
          | none =>
            simp only [findNodeLO, List.nil_append, findNodeL, hanc, Option.map]
          | some l =>
            rw [findNodeLO, findNodeLO, findNodeL_append]
            cases hlf : findNodeL j l with
            | some q =>
              have hq : i ∉ idsOf q := fun hx =>
                hips (by
                  rw [idsOfLO]
                  exact (findNodeL_some_spec j l q hlf).2.2 i hx)
              rw [Option.map, addParent_noop c i q hq]
            | none =>
              simp only [findNodeL, hanc, Option.map]
    · rw [addParentToNode_def, if_neg hit]
      by_cases hij : i = j
      · rw [findNode, if_pos hij, findNode, if_pos hij, Option.map,
          addParentToNode_def, if_neg hit]
      · rw [findNode, if_neg hij, findNode, if_neg hij,
          findNodeSp_addParent j c t sp hndsp hjc]
        cases hspf : findNodeSp j sp with
        | some q => rfl
        | none =>
          rw [Option.map]
          exact findNodeLO_addParent j c t ps hndps hjc

/-- `findNode_addParent` for the optional spouse slot. -/
theorem findNodeSp_addParent (j c t : String) :
    ∀ sp, (idsOfSp sp).Nodup → ¬ (j = c) →
      findNodeSp j (addParentSp c t sp) = (findNodeSp j sp).map (addParentToNode c t)
  | none => fun _ _ => rfl
  | some s => fun hnd hjc => by
    rw [addParentSp, findNodeSp, findNodeSp]
    exact findNode_addParent j c t s (by simpa [idsOfSp] using hnd) hjc

/-- `findNode_addParent` for a parents array. -/
theorem findNodeL_addParent (j c t : String) :
    ∀ l, (idsOfL l).Nodup → ¬ (j = c) →
      findNodeL j (addParentL c t l) = (findNodeL j l).map (addParentToNode c t)
  | [] => fun _ _ => rfl
  | p :: rest => fun hnd hjc => by
    obtain ⟨hp, hrest, _⟩ := nodupL_parts hnd
    rw [addParentL, findNodeL, findNodeL, findNode_addParent j c t p hp hjc]
    cases findNode j p with
    | some q => rfl
    | none =>
      rw [Option.map]
      exact findNodeL_addParent j c t rest hrest hjc

/-- `findNode_addParent` for an optional parents array. -/
theorem findNodeLO_addParent (j c t : String) :
    ∀ ps, (idsOfLO ps).Nodup → ¬ (j = c) →
      findNodeLO j (addParentLO c t ps) = (findNodeLO j ps).map (addParentToNode c t)
  | none => fun _ _ => rfl
  | some l => fun hnd hjc => by
    rw [addParentLO, findNodeLO, findNodeLO]
    exact findNodeL_addParent j c t l (by simpa [idsOfLO] using hnd) hjc

end

mutual

/-- On a duplicate-free tree containing the target, add-ancestor inserts
exactly one new id, the fresh one: the ids afterwards are a permutation of
the fresh id joined to the old ids. -/
theorem idsOf_addParent_perm (c t : String) :
    ∀ m, (idsOf m).Nodup → t ∈ idsOf m →
      List.Perm (idsOf (addParentToNode c t m)) (c :: idsOf m)
  | .mk i n y img rel ps sp => fun hnd hmem => by
    obtain ⟨hisp, hips, hndsp, hndps, hdisj⟩ := nodup_parts hnd
    by_cases hit : i = t
    · rw [addParentToNode_def, if_pos hit]
      cases ps with
      | none =>
        simp only [idsOf, idsOfLO, List.nil_append, idsOfL, idsOf_newAncestorNode,
          List.append_nil]
        exact ((List.perm_append_singleton c _).cons i).trans (List.Perm.swap c i _)
      | some l =>
        simp only [idsOf, idsOfLO, idsOfL_append, idsOfL, idsOf_newAncestorNode,
          List.append_nil]
        rw [← List.append_assoc]
        exact ((List.perm_append_singleton c _).cons i).trans (List.Perm.swap c i _)
    · rw [addParentToNode_def, if_neg hit]
      have hmem' : t ∈ idsOfSp sp ∨ t ∈ idsOfLO ps := by
        simp only [idsOf, List.mem_cons, List.mem_append] at hmem
        rcases hmem with h | h
        · exact absurd h.symm hit
        · exact h
      rcases hmem' with hsp | hps
      · have hnops : t ∉ idsOfLO ps := hdisj t hsp
        rw [idsOf, idsOf, addParentLO_noop c t ps hnops]
        exact (((idsOfSp_addParent_perm c t sp hndsp hsp).append_right _).cons i).trans
          (List.Perm.swap c i _)
      · have hnosp : t ∉ idsOfSp sp := fun hx => hdisj t hx hps
        rw [idsOf, idsOf, addParentSp_noop c t sp hnosp]
        exact (((idsOfLO_addParent_perm c t ps hndps hps).append_left _).cons i).trans
          ((List.perm_middle.cons i).trans (List.Perm.swap c i _))

/-- `idsOf_addParent_perm` for the optional spouse slot. -/
theorem idsOfSp_addParent_perm (c t : String) :
    ∀ sp, (idsOfSp sp).Nodup → t ∈ idsOfSp sp →
      List.Perm (idsOfSp (addParentSp c t sp)) (c :: idsOfSp sp)
  | none => fun _ hmem => by simp [idsOfSp] at hmem
  | some s => fun hnd hmem => by
    rw [addParentSp, idsOfSp, idsOfSp]
    exact idsOf_addParent_perm c t s (by simpa [idsOfSp] using hnd)
      (by simpa [idsOfSp] using hmem)

/-- `idsOf_addParent_perm` for a parents array. -/
theorem idsOfL_addParent_perm (c t : String) :
    ∀ l, (idsOfL l).Nodup → t ∈ idsOfL l →
      List.Perm (idsOfL (addParentL c t l)) (c :: idsOfL l)
  | [] => fun _ hmem => by simp [idsOfL] at hmem
  | p :: rest => fun hnd hmem => by
    obtain ⟨hp, hrest, hdisj⟩ := nodupL_parts hnd
    have hmem' : t ∈ idsOf p ∨ t ∈ idsOfL rest := by
      simpa [idsOfL] using hmem
    rw [addParentL, idsOfL, idsOfL]
    rcases hmem' with hin | hin
    · have hnorest : t ∉ idsOfL rest := hdisj t hin
      rw [addParentL_noop c t rest hnorest]
      exact (idsOf_addParent_perm c t p hp hin).append_right _
    · have hnop : t ∉ idsOf p := fun hx => hdisj t hx hin
      rw [addParent_noop c t p hnop]
      exact ((idsOfL_addParent_perm c t rest hrest hin).append_left _).trans
        List.perm_middle

/-- `idsOf_addParent_perm` for an optional parents array. -/
theorem idsOfLO_addParent_perm (c t : String) :
    ∀ ps, (idsOfLO ps).Nodup → t ∈ idsOfLO ps →
      List.Perm (idsOfLO (addParentLO c t ps)) (c :: idsOfLO ps)
  | none => fun _ hmem => by simp [idsOfLO] at hmem
  | some l => fun hnd hmem => by
    rw [addParentLO, idsOfLO, idsOfLO]
    exact idsOfL_addParent_perm c t l (by simpa [idsOfLO] using hnd)
      (by simpa [idsOfLO] using hmem)

end

/-- Locating the target after an add-ancestor call on a duplicate-free
tree with a fresh id: the target node reappears with the synthetic
ancestor appended to its parents array and everything else intact. -/
theorem addParent_found (T : FamilyMember) (t c : String) (n : FamilyMember)
    (hnd : (idsOf T).Nodup) (hc : c ∉ idsOf T) (hfind : findNode t T = some n) :
    findNode t (addParentToNode c t T)
      = some (.mk t n.name n.year n.imageUrl n.relationship
          (some (n.parents.getD [] ++ [newAncestorNode c n.year])) n.spouse) := by
  have hmem : t ∈ idsOf T := (findNode_some_spec t T n hfind).2.1
  have hid : n.id = t := (findNode_some_spec t T n hfind).1
  have htc : ¬ (t = c) := fun he => hc (he ▸ hmem)
  rw [findNode_addParent t c t T hnd htc, hfind, Option.map]
  cases n with
  | mk i nn yy ii rr pp ss =>
    simp only [FamilyMember.id] at hid
    rw [addParentToNode_def, if_pos hid]
    simp only [FamilyMember.name, FamilyMember.year, FamilyMember.imageUrl,
      FamilyMember.relationship, FamilyMember.parents, FamilyMember.spouse, hid]
    cases pp with
    | none => rfl
    | some l => rfl

/-- C6: on a duplicate-free tree, adding an ancestor at a present id whose
year parses as the integer Y appends to that node's parents sequence one
synthetic node with year `Y - 25` and relationship "Parent", preserving the
existing entries; a second call (with its own fresh id) appends one more
entry after the first instead of replacing it. -/
theorem addAncestor_appends (T : FamilyMember) (t c c2 : String) (n : FamilyMember) (Y : Int)
    (hnd : (idsOf T).Nodup) (hc : c ∉ idsOf T) (hc2 : c2 ∉ idsOf T) (hcc : c2 ≠ c)
    (hfind : findNode t T = some n) (hyear : jsParseInt n.year = some Y) :
    (newAncestorNode c n.year).year = toString (Y - 25) ∧
    (newAncestorNode c n.year).relationship = some "Parent" ∧
    findNode t (addParentToNode c t T)
      = some (.mk t n.name n.year n.imageUrl n.relationship
          (some (n.parents.getD [] ++ [newAncestorNode c n.year])) n.spouse) ∧
    findNode t (addParentToNode c2 t (addParentToNode c t T))
      = some (.mk t n.name n.year n.imageUrl n.relationship
          (some (n.parents.getD []
            ++ [newAncestorNode c n.year, newAncestorNode c2 n.year])) n.spouse) := by
  have hmem : t ∈ idsOf T := (findNode_some_spec t T n hfind).2.1
  have h3 := addParent_found T t c n hnd hc hfind
  refine ⟨?_, rfl, h3, ?_⟩
  · have hy : (newAncestorNode c n.year).year
        = (match jsParseInt n.year with | some v => toString (v - 25) | none => "NaN") := rfl
    rw [hy, hyear]
  · have hperm := idsOf_addParent_perm c t T hnd hmem
    have hnd1 : (idsOf (addParentToNode c t T)).Nodup :=
      hperm.nodup_iff.mpr (List.nodup_cons.mpr ⟨hc, hnd⟩)
    have hc2' : c2 ∉ idsOf (addParentToNode c t T) := by
      intro hx
      rcases List.mem_cons.mp (hperm.mem_iff.mp hx) with h | h
      · exact hcc h
      · exact hc2 h
    have h4 := addParent_found (addParentToNode c t T) t c2
      (.mk t n.name n.year n.imageUrl n.relationship
        (some (n.parents.getD [] ++ [newAncestorNode c n.year])) n.spouse)
      hnd1 hc2' h3
    simpa only [FamilyMember.name, FamilyMember.year, FamilyMember.imageUrl,
      FamilyMember.relationship, FamilyMember.parents, FamilyMember.spouse,
      Option.getD, List.append_assoc, List.cons_append, List.nil_append] using h4

/-- Witness for C6: adding an ancestor to `p2` (Arthur Legacy, year 1928)
in the seed dataset appends a synthetic ancestor with year 1903 and
relationship "Parent" to his empty parents array, and a second call with a
second fresh id appends a second entry after the first. -/
theorem addAncestor_appends_witness :
    (newAncestorNode "na1" arthurNode.year).year = toString ((1928 : Int) - 25) ∧
    (newAncestorNode "na1" arthurNode.year).relationship = some "Parent" ∧
    findNode "p2" (addParentToNode "na1" "p2" INITIAL_DATA)
      = some (.mk "p2" arthurNode.name arthurNode.year arthurNode.imageUrl
          arthurNode.relationship
          (some (arthurNode.parents.getD [] ++ [newAncestorNode "na1" arthurNode.year]))
          arthurNode.spouse) ∧
    findNode "p2" (addParentToNode "na2" "p2" (addParentToNode "na1" "p2" INITIAL_DATA))
      = some (.mk "p2" arthurNode.name arthurNode.year arthurNode.imageUrl
          arthurNode.relationship
          (some (arthurNode.parents.getD []
            ++ [newAncestorNode "na1" arthurNode.year, newAncestorNode "na2" arthurNode.year]))
          arthurNode.spouse) :=
  addAncestor_appends INITIAL_DATA "p2" "na1" "na2" arthurNode 1928
    (by decide) (by decide) (by decide) (by decide) rfl rfl

/-- The synthetic spouse's tree consists of its fresh id alone. -/
theorem idsOf_newSpouseNode (c y : String) : idsOf (newSpouseNode c y) = [c] := by
  simp [newSpouseNode, idsOf, idsOfSp, idsOfLO, idsOfL]

/-- Unfolding: add-spouse at the matched node refuses when a spouse
exists. -/
theorem addSpouse_matched_some (c t i n y img : String) (rel : Option String)
    (ps : Option (List FamilyMember)) (s : FamilyMember) (hit : i = t) :
    addSpouseToNode c t (.mk i n y img rel ps (some s))
      = (.mk i n y img rel ps (some s), true) := by
  rw [addSpouseToNode.eq_def]
  simp [hit]

/-- Unfolding: add-spouse at the matched node installs the synthetic
spouse when none exists. -/
theorem addSpouse_matched_none (c t i n y img : String) (rel : Option String)
    (ps : Option (List FamilyMember)) (hit : i = t) :
    addSpouseToNode c t (.mk i n y img rel ps none)
      = (.mk i n y img rel ps (some (newSpouseNode c y)), false) := by
  rw [addSpouseToNode.eq_def]
  simp [hit]

/-- Unfolding: add-spouse recurses through spouse and parents away from
the matched node, collecting alerts. -/
theorem addSpouse_unmatched (c t i n y img : String) (rel : Option String)
    (ps : Option (List FamilyMember)) (sp : Option FamilyMember) (hit : ¬ (i = t)) :
    addSpouseToNode c t (.mk i n y img rel ps sp)
      = (.mk i n y img rel (addSpouseLO c t ps).1 (addSpouseSp c t sp).1,
          (addSpouseSp c t sp).2 || (addSpouseLO c t ps).2) := by
  rw [addSpouseToNode.eq_def]
  simp [hit]

/-- An unsuccessful lookup means the id is absent (node form). -/
theorem not_mem_of_findNode_eq_none {j : String} {m : FamilyMember}
    (h : findNode j m = none) : j ∉ idsOf m := by
  intro hmem
  have := findNode_isSome j m hmem
  rw [h] at this
  simp at this

/-- An unsuccessful lookup means the id is absent (parents array form). -/
theorem not_mem_of_findNodeL_eq_none {j : String} {l : List FamilyMember}
    (h : findNodeL j l = none) : j ∉ idsOfL l := by
  intro hmem
  have := findNodeL_isSome j l hmem
  rw [h] at this
  simp at this

/-- An unsuccessful lookup means the id is absent (optional parents array
form). -/
theorem not_mem_of_findNodeLO_eq_none {j : String} {ps : Option (List FamilyMember)}
    (h : findNodeLO j ps = none) : j ∉ idsOfLO ps := by
  intro hmem
  have := findNodeLO_isSome j ps hmem
  rw [h] at this
  simp at this

mutual

/-- On a duplicate-free tree, lookup of an id other than the fresh id
commutes with the tree component of add-spouse. -/
theorem findNode_addSpouse (j c t : String) :
    ∀ m, (idsOf m).Nodup → ¬ (j = c) →
      findNode j (addSpouseToNode c t m).1
        = (findNode j m).map (fun x => (addSpouseToNode c t x).1)
  | .mk i n y img rel ps sp => fun hnd hjc => by
    obtain ⟨hisp, hips, hndsp, hndps, _⟩ := nodup_parts hnd
    by_cases hit : i = t
    · cases sp with
      | some s =>
        have h1 : (addSpouseToNode c t (.mk i n y img rel ps (some s))).1
            = .mk i n y img rel ps (some s) := by
          rw [addSpouse_matched_some c t i n y img rel ps s hit]
        rw [h1]
        by_cases hij : i = j
        · rw [findNode, if_pos hij]
          simp only [Option.map, h1]
        · rw [findNode, if_neg hij]
          subst hit
          cases hspf : findNodeSp j (some s) with
          | some q =>
            have hq : i ∉ idsOf q := fun hx =>
              hisp ((findNodeSp_some_spec j (some s) q hspf).2.2 i hx)
            simp only [Option.map, addSpouse_noop c i q hq]
          | none =>
            cases hlof : findNodeLO j ps with
            | some q =>
              have hq : i ∉ idsOf q := fun hx =>
                hips ((findNodeLO_some_spec j ps q hlof).2.2 i hx)
              simp only [Option.map, addSpouse_noop c i q hq]
            | none => rfl
      | none =>
        have h1 : (addSpouseToNode c t (.mk i n y img rel ps none)).1
            = .mk i n y img rel ps (some (newSpouseNode c y)) := by
          rw [addSpouse_matched_none c t i n y img rel ps hit]
        rw [h1]
        by_cases hij : i = j
        · rw [findNode, if_pos hij, findNode, if_pos hij]
          simp only [Option.map, h1]
        · rw [findNode, if_neg hij, findNode, if_neg hij]
          subst hit
          have hnew : findNode j (newSpouseNode c y) = none :=
            findNode_eq_none (by
              rw [idsOf_newSpouseNode]
              exact fun hx => hjc (by simpa using hx))
          simp only [findNodeSp, hnew]
          cases hlof : findNodeLO j ps with
          | some q =>
            have hq : i ∉ idsOf q := fun hx =>
              hips ((findNodeLO_some_spec j ps q hlof).2.2 i hx)
            simp only [Option.map, addSpouse_noop c i q hq]
          | none => rfl
    · have h1 : (addSpouseToNode c t (.mk i n y img rel ps sp)).1
          = .mk i n y img rel (addSpouseLO c t ps).1 (addSpouseSp c t sp).1 := by
        rw [addSpouse_unmatched c t i n y img rel ps sp hit]
      rw [h1]
      by_cases hij : i = j
      · rw [findNode, if_pos hij, findNode, if_pos hij]
        simp only [Option.map, h1]
      · rw [findNode, if_neg hij, findNode, if_neg hij,
          findNodeSp_addSpouse j c t sp hndsp hjc]
        cases hspf : findNodeSp j sp with
        | some q => rfl
        | none =>
          simp only [Option.map]
          exact findNodeLO_addSpouse j c t ps hndps hjc

/-- `findNode_addSpouse` for the optional spouse slot. -/
theorem findNodeSp_addSpouse (j c t : String) :
    ∀ sp, (idsOfSp sp).Nodup → ¬ (j = c) →
      findNodeSp j (addSpouseSp c t sp).1
        = (findNodeSp j sp).map (fun x => (addSpouseToNode c t x).1)
  | none => fun _ _ => rfl
  | some s => fun hnd hjc => by
    rw [addSpouseSp, findNodeSp, findNodeSp]
    exact findNode_addSpouse j c t s (by simpa [idsOfSp] using hnd) hjc

/-- `findNode_addSpouse` for a parents array. -/
theorem findNodeL_addSpouse (j c t : String) :
    ∀ l, (idsOfL l).Nodup → ¬ (j = c) →
      findNodeL j (addSpouseL c t l).1
        = (findNodeL j l).map (fun x => (addSpouseToNode c t x).1)
  | [] => fun _ _ => rfl
  | p :: rest => fun hnd hjc => by
    obtain ⟨hp, hrest, _⟩ := nodupL_parts hnd
    rw [addSpouseL, findNodeL, findNodeL, findNode_addSpouse j c t p hp hjc]
    cases findNode j p with
    | some q => rfl
    | none =>
      simp only [Option.map]
      exact findNodeL_addSpouse j c t rest hrest hjc

/-- `findNode_addSpouse` for an optional parents array. -/
theorem findNodeLO_addSpouse (j c t : String) :
    ∀ ps, (idsOfLO ps).Nodup → ¬ (j = c) →
      findNodeLO j (addSpouseLO c t ps).1
        = (findNodeLO j ps).map (fun x => (addSpouseToNode c t x).1)
  | none => fun _ _ => rfl
  | some l => fun hnd hjc => by
    rw [addSpouseLO, findNodeLO, findNodeLO]
    exact findNodeL_addSpouse j c t l (by simpa [idsOfLO] using hnd) hjc

end

mutual

/-- On a duplicate-free tree whose target node already has a spouse,
add-spouse raises the alert and returns the tree unchanged. -/
theorem addSpouse_refused (c t : String) :
    ∀ m nn, (idsOf m).Nodup → findNode t m = some nn → nn.spouse.isSome = true →
      addSpouseToNode c t m = (m, true)
  | .mk i n y img rel ps sp, nn => fun hnd hfind hsome => by
    obtain ⟨_, _, hndsp, hndps, hdisj⟩ := nodup_parts hnd
    by_cases hit : i = t
    · rw [findNode, if_pos hit] at hfind
      obtain rfl : FamilyMember.mk i n y img rel ps sp = nn := by simpa using hfind
      cases sp with
      | none => simp [FamilyMember.spouse] at hsome
      | some s => exact addSpouse_matched_some c t i n y img rel ps s hit
    · rw [findNode, if_neg hit] at hfind
      rw [addSpouse_unmatched c t i n y img rel ps sp hit]
      cases hspf : findNodeSp t sp with
      | some q =>
        rw [hspf] at hfind
        obtain rfl : q = nn := by simpa using hfind
        have htps : t ∉ idsOfLO ps :=
          fun hx => hdisj t ((findNodeSp_some_spec t sp q hspf).2.1) hx
        rw [addSpouseSp_refused c t sp q hndsp hspf hsome,
          addSpouseLO_noop c t ps htps]
        rfl
      | none =>
        rw [hspf] at hfind
        have hfind' : findNodeLO t ps = some nn := by simpa using hfind
        have htsp : t ∉ idsOfSp sp := not_mem_of_findNodeSp_eq_none hspf
        rw [addSpouseSp_noop c t sp htsp,
          addSpouseLO_refused c t ps nn hndps hfind' hsome]
        rfl

/-- `addSpouse_refused` for the optional spouse slot. -/
theorem addSpouseSp_refused (c t : String) :
    ∀ sp nn, (idsOfSp sp).Nodup → findNodeSp t sp = some nn → nn.spouse.isSome = true →
      addSpouseSp c t sp = (sp, true)
  | none, nn => fun _ hfind _ => by simp [findNodeSp] at hfind
  | some s, nn => fun hnd hfind hsome => by
    rw [findNodeSp] at hfind
    rw [addSpouseSp, addSpouse_refused c t s nn (by simpa [idsOfSp] using hnd) hfind hsome]

/-- `addSpouse_refused` for a parents array. -/
theorem addSpouseL_refused (c t : String) :
    ∀ l nn, (idsOfL l).Nodup → findNodeL t l = some nn → nn.spouse.isSome = true →
      addSpouseL c t l = (l, true)
  | [], nn => fun _ hfind _ => by simp [findNodeL] at hfind
  | p :: rest, nn => fun hnd hfind hsome => by
    obtain ⟨hp, hrest, hdisj⟩ := nodupL_parts hnd
    rw [findNodeL] at hfind
    rw [addSpouseL]
    cases hpf : findNode t p with
    | some q =>
      rw [hpf] at hfind
      obtain rfl : q = nn := by simpa using hfind
      have htrest : t ∉ idsOfL rest :=
        fun hx => hdisj t ((findNode_some_spec t p q hpf).2.1) hx
      rw [addSpouse_refused c t p q hp hpf hsome, addSpouseL_noop c t rest htrest]
      rfl
    | none =>
      rw [hpf] at hfind
      have hfind' : findNodeL t rest = some nn := by simpa using hfind
      have htp : t ∉ idsOf p := not_mem_of_findNode_eq_none hpf
      rw [addSpouse_noop c t p htp, addSpouseL_refused c t rest nn hrest hfind' hsome]
      rfl

/-- `addSpouse_refused` for an optional parents array. -/
theorem addSpouseLO_refused (c t : String) :
    ∀ ps nn, (idsOfLO ps).Nodup → findNodeLO t ps = some nn → nn.spouse.isSome = true →
      addSpouseLO c t ps = (ps, true)
  | none, nn => fun _ hfind _ => by simp [findNodeLO] at hfind
  | some l, nn => fun hnd hfind hsome => by
    rw [findNodeLO] at hfind
    rw [addSpouseLO, addSpouseL_refused c t l nn (by simpa [idsOfLO] using hnd) hfind hsome]

end

mutual

/-- On a duplicate-free tree whose target node has no spouse, add-spouse
raises no alert. -/
theorem addSpouse_no_alert (c t : String) :
    ∀ m nn, (idsOf m).Nodup → findNode t m = some nn → nn.spouse = none →
      (addSpouseToNode c t m).2 = false
  | .mk i n y img rel ps sp, nn => fun hnd hfind hnone => by
    obtain ⟨_, _, hndsp, hndps, hdisj⟩ := nodup_parts hnd
    by_cases hit : i = t
    · rw [findNode, if_pos hit] at hfind
      obtain rfl : FamilyMember.mk i n y img rel ps sp = nn := by simpa using hfind
      simp only [FamilyMember.spouse] at hnone
      subst hnone
      rw [addSpouse_matched_none c t i n y img rel ps hit]
    · rw [findNode, if_neg hit] at hfind
      rw [addSpouse_unmatched c t i n y img rel ps sp hit]
      cases hspf : findNodeSp t sp with
      | some q =>
        rw [hspf] at hfind
        obtain rfl : q = nn := by simpa using hfind
        have htps : t ∉ idsOfLO ps :=
          fun hx => hdisj t ((findNodeSp_some_spec t sp q hspf).2.1) hx
        simp only [addSpouseSp_no_alert c t sp q hndsp hspf hnone,
          addSpouseLO_noop c t ps htps, Bool.or_false]
      | none =>
        rw [hspf] at hfind
        have hfind' : findNodeLO t ps = some nn := by simpa using hfind
        have htsp : t ∉ idsOfSp sp := not_mem_of_findNodeSp_eq_none hspf
        simp only [addSpouseSp_noop c t sp htsp,
          addSpouseLO_no_alert c t ps nn hndps hfind' hnone, Bool.false_or]

/-- `addSpouse_no_alert` for the optional spouse slot. -/
theorem addSpouseSp_no_alert (c t : String) :
    ∀ sp nn, (idsOfSp sp).Nodup → findNodeSp t sp = some nn → nn.spouse = none →
      (addSpouseSp c t sp).2 = false
  | none, nn => fun _ hfind _ => by simp [findNodeSp] at hfind
  | some s, nn => fun hnd hfind hnone => by
    rw [findNodeSp] at hfind
    rw [addSpouseSp]
    exact addSpouse_no_alert c t s nn (by simpa [idsOfSp] using hnd) hfind hnone

/-- `addSpouse_no_alert` for a parents array. -/
theorem addSpouseL_no_alert (c t : String) :
    ∀ l nn, (idsOfL l).Nodup → findNodeL t l = some nn → nn.spouse = none →
      (addSpouseL c t l).2 = false
  | [], nn => fun _ hfind _ => by simp [findNodeL] at hfind
  | p :: rest, nn => fun hnd hfind hnone => by
    obtain ⟨hp, hrest, hdisj⟩ := nodupL_parts hnd
    rw [findNodeL] at hfind
    rw [addSpouseL]
    cases hpf : findNode t p with
    | some q =>
      rw [hpf] at hfind
      obtain rfl : q = nn := by simpa using hfind
      have htrest : t ∉ idsOfL rest :=
        fun hx => hdisj t ((findNode_some_spec t p q hpf).2.1) hx
      simp only [addSpouse_no_alert c t p q hp hpf hnone,
        addSpouseL_noop c t rest htrest, Bool.or_false]
    | none =>
      rw [hpf] at hfind
      have hfind' : findNodeL t rest = some nn := by simpa using hfind
      have htp : t ∉ idsOf p := not_mem_of_findNode_eq_none hpf
      simp only [addSpouse_noop c t p htp,
        addSpouseL_no_alert c t rest nn hrest hfind' hnone, Bool.false_or]

/-- `addSpouse_no_alert` for an optional parents array. -/
theorem addSpouseLO_no_alert (c t : String) :
    ∀ ps nn, (idsOfLO ps).Nodup → findNodeLO t ps = some nn → nn.spouse = none →
      (addSpouseLO c t ps).2 = false
  | none, nn => fun _ hfind _ => by simp [findNodeLO] at hfind
  | some l, nn => fun hnd hfind hnone => by
    rw [findNodeLO] at hfind
    rw [addSpouseLO]
    exact addSpouseL_no_alert c t l nn (by simpa [idsOfLO] using hnd) hfind hnone

end

mutual

/-- On a duplicate-free tree whose target node has no spouse, add-spouse
inserts exactly the fresh id: the ids afterwards are a permutation of the
fresh id joined to the old ids. -/
theorem idsOf_addSpouse_perm (c t : String) :
    ∀ m nn, (idsOf m).Nodup → findNode t m = some nn → nn.spouse = none →
      List.Perm (idsOf (addSpouseToNode c t m).1) (c :: idsOf m)
  | .mk i n y img rel ps sp, nn => fun hnd hfind hnone => by
    obtain ⟨_, _, hndsp, hndps, hdisj⟩ := nodup_parts hnd
    by_cases hit : i = t
    · rw [findNode, if_pos hit] at hfind
      obtain rfl : FamilyMember.mk i n y img rel ps sp = nn := by simpa using hfind
      simp only [FamilyMember.spouse] at hnone
      subst hnone
      have h1 : (addSpouseToNode c t (.mk i n y img rel ps none)).1
          = .mk i n y img rel ps (some (newSpouseNode c y)) := by
        rw [addSpouse_matched_none c t i n y img rel ps hit]
      rw [h1]
      simp only [idsOf, idsOfSp, idsOf_newSpouseNode, List.nil_append, List.cons_append]
      exact List.Perm.swap c i _
    · rw [findNode, if_neg hit] at hfind
      have h1 : (addSpouseToNode c t (.mk i n y img rel ps sp)).1
          = .mk i n y img rel (addSpouseLO c t ps).1 (addSpouseSp c t sp).1 := by
        rw [addSpouse_unmatched c t i n y img rel ps sp hit]
      rw [h1]
      cases hspf : findNodeSp t sp with
      | some q =>
        rw [hspf] at hfind
        obtain rfl : q = nn := by simpa using hfind
        have htps : t ∉ idsOfLO ps :=
          fun hx => hdisj t ((findNodeSp_some_spec t sp q hspf).2.1) hx
        have hps1 : (addSpouseLO c t ps).1 = ps := by
          rw [addSpouseLO_noop c t ps htps]
        rw [idsOf, idsOf, hps1]
        exact (((idsOfSp_addSpouse_perm c t sp q hndsp hspf hnone).append_right _).cons
          i).trans (List.Perm.swap c i _)
      | none =>
        rw [hspf] at hfind
        have hfind' : findNodeLO t ps = some nn := by simpa using hfind
        have htsp : t ∉ idsOfSp sp := not_mem_of_findNodeSp_eq_none hspf
        have hsp1 : (addSpouseSp c t sp).1 = sp := by
          rw [addSpouseSp_noop c t sp htsp]
        rw [idsOf, idsOf, hsp1]
        exact (((idsOfLO_addSpouse_perm c t ps nn hndps hfind' hnone).append_left
          _).cons i).trans ((List.perm_middle.cons i).trans (List.Perm.swap c i _))

/-- `idsOf_addSpouse_perm` for the optional spouse slot. -/
theorem idsOfSp_addSpouse_perm (c t : String) :
    ∀ sp nn, (idsOfSp sp).Nodup → findNodeSp t sp = some nn → nn.spouse = none →
      List.Perm (idsOfSp (addSpouseSp c t sp).1) (c :: idsOfSp sp)
  | none, nn => fun _ hfind _ => by simp [findNodeSp] at hfind
  | some s, nn => fun hnd hfind hnone => by
    rw [findNodeSp] at hfind
    rw [addSpouseSp, idsOfSp, idsOfSp]
    exact idsOf_addSpouse_perm c t s nn (by simpa [idsOfSp] using hnd) hfind hnone

/-- `idsOf_addSpouse_perm` for a parents array. -/
theorem idsOfL_addSpouse_perm (c t : String) :
    ∀ l nn, (idsOfL l).Nodup → findNodeL t l = some nn → nn.spouse = none →
      List.Perm (idsOfL (addSpouseL c t l).1) (c :: idsOfL l)
  | [], nn => fun _ hfind _ => by simp [findNodeL] at hfind
  | p :: rest, nn => fun hnd hfind hnone => by
    obtain ⟨hp, hrest, hdisj⟩ := nodupL_parts hnd
    rw [findNodeL] at hfind
    rw [addSpouseL, idsOfL, idsOfL]
    cases hpf : findNode t p with
    | some q =>
      rw [hpf] at hfind
      obtain rfl : q = nn := by simpa using hfind
      have htrest : t ∉ idsOfL rest :=
        fun hx => hdisj t ((findNode_some_spec t p q hpf).2.1) hx
      have hrest1 : (addSpouseL c t rest).1 = rest := by
        rw [addSpouseL_noop c t rest htrest]
      rw [hrest1]
      exact (idsOf_addSpouse_perm c t p q hp hpf hnone).append_right _
    | none =>
      rw [hpf] at hfind
      have hfind' : findNodeL t rest = some nn := by simpa using hfind
      have htp : t ∉ idsOf p := not_mem_of_findNode_eq_none hpf
      have hp1 : (addSpouseToNode c t p).1 = p := by
        rw [addSpouse_noop c t p htp]
      rw [hp1]
      exact ((idsOfL_addSpouse_perm c t rest nn hrest hfind' hnone).append_left _).trans
        List.perm_middle

/-- `idsOf_addSpouse_perm` for an optional parents array. -/
theorem idsOfLO_addSpouse_perm (c t : String) :
    ∀ ps nn, (idsOfLO ps).Nodup → findNodeLO t ps = some nn → nn.spouse = none →
      List.Perm (idsOfLO (addSpouseLO c t ps).1) (c :: idsOfLO ps)
  | none, nn => fun _ hfind _ => by simp [findNodeLO] at hfind
  | some l, nn => fun hnd hfind hnone => by
    rw [findNodeLO] at hfind
    rw [addSpouseLO, idsOfLO, idsOfLO]
    exact idsOfL_addSpouse_perm c t l nn (by simpa [idsOfLO] using hnd) hfind hnone

end

/-- Locating the target after a successful add-spouse call on a
duplicate-free tree with a fresh id: the target node reappears with its
spouse slot set to the synthetic spouse and everything else intact. -/
theorem addSpouse_found (T : FamilyMember) (t c : String) (n : FamilyMember)
    (hnd : (idsOf T).Nodup) (hc : c ∉ idsOf T) (hfind : findNode t T = some n)
    (hsp : n.spouse = none) :
    findNode t (addSpouseToNode c t T).1
      = some (.mk t n.name n.year n.imageUrl n.relationship n.parents
          (some (newSpouseNode c n.year))) := by
  have hmem : t ∈ idsOf T := (findNode_some_spec t T n hfind).2.1
  have hid : n.id = t := (findNode_some_spec t T n hfind).1
  have htc : ¬ (t = c) := fun he => hc (he ▸ hmem)
  rw [findNode_addSpouse t c t T hnd htc, hfind]
  simp only [Option.map]
  cases n with
  | mk i nn yy ii rr pp ss =>
    simp only [FamilyMember.id] at hid
    simp only [FamilyMember.spouse] at hsp
    subst hsp
    have h1 : (addSpouseToNode c t (.mk i nn yy ii rr pp none)).1
        = .mk i nn yy ii rr pp (some (newSpouseNode c yy)) := by
      rw [addSpouse_matched_none c t i nn yy ii rr pp hid]
    rw [h1]
    simp only [FamilyMember.name, FamilyMember.year, FamilyMember.imageUrl,
      FamilyMember.relationship, FamilyMember.parents, hid]

/-- C7: on a duplicate-free tree, add-spouse at a present id whose node has
no spouse sets that node's spouse to a synthetic node named "New Spouse"
with relationship "Spouse" and the target's own year, raising no alert —
and a second add-spouse call on the result is a refused no-op with an
alert; if the node already has a spouse the call raises the alert and
returns the tree unchanged. -/
theorem addSpouse_sets_or_refuses (T : FamilyMember) (t c : String) (n : FamilyMember)
    (hnd : (idsOf T).Nodup) (hc : c ∉ idsOf T) (hfind : findNode t T = some n) :
    (n.spouse = none →
      (addSpouseToNode c t T).2 = false ∧
      findNode t (addSpouseToNode c t T).1
        = some (.mk t n.name n.year n.imageUrl n.relationship n.parents
            (some (newSpouseNode c n.year))) ∧
      (newSpouseNode c n.year).name = "New Spouse" ∧
      (newSpouseNode c n.year).relationship = some "Spouse" ∧
      (newSpouseNode c n.year).year = n.year ∧
      (∀ c2, addSpouseToNode c2 t (addSpouseToNode c t T).1
          = ((addSpouseToNode c t T).1, true))) ∧
    (n.spouse.isSome = true → addSpouseToNode c t T = (T, true)) := by
  constructor
  · intro hnone
    have hfound := addSpouse_found T t c n hnd hc hfind hnone
    refine ⟨addSpouse_no_alert c t T n hnd hfind hnone, hfound, rfl, rfl, rfl, ?_⟩
    intro c2
    have hperm := idsOf_addSpouse_perm c t T n hnd hfind hnone
    have hmem : t ∈ idsOf T := (findNode_some_spec t T n hfind).2.1
    have hnd1 : (idsOf (addSpouseToNode c t T).1).Nodup :=
      hperm.nodup_iff.mpr (List.nodup_cons.mpr ⟨hc, hnd⟩)
    exact addSpouse_refused c2 t (addSpouseToNode c t T).1
      (.mk t n.name n.year n.imageUrl n.relationship n.parents
        (some (newSpouseNode c n.year))) hnd1 hfound rfl
  · intro hsome
    exact addSpouse_refused c t T n hnd hfind hsome

/-- Witness for C7: adding a spouse to `p2` (Arthur Legacy, no spouse) in
the seed dataset installs a synthetic "New Spouse" with Arthur's year 1928
without an alert, and a second call on the result is refused with an alert
and leaves the tree unchanged. -/
theorem addSpouse_sets_or_refuses_witness :
    (addSpouseToNode "ns1" "p2" INITIAL_DATA).2 = false ∧
    findNode "p2" (addSpouseToNode "ns1" "p2" INITIAL_DATA).1
      = some (.mk "p2" arthurNode.name arthurNode.year arthurNode.imageUrl
          arthurNode.relationship arthurNode.parents
          (some (newSpouseNode "ns1" arthurNode.year))) ∧
    (newSpouseNode "ns1" arthurNode.year).name = "New Spouse" ∧
    (newSpouseNode "ns1" arthurNode.year).relationship = some "Spouse" ∧
    (newSpouseNode "ns1" arthurNode.year).year = arthurNode.year ∧
    addSpouseToNode "ns2" "p2" (addSpouseToNode "ns1" "p2" INITIAL_DATA).1
      = ((addSpouseToNode "ns1" "p2" INITIAL_DATA).1, true) :=
  have h := (addSpouse_sets_or_refuses INITIAL_DATA "p2" "ns1" arthurNode
    (by decide) (by decide) rfl).1 rfl
  ⟨h.1, h.2.1, h.2.2.1, h.2.2.2.1, h.2.2.2.2.1, h.2.2.2.2.2 "ns2"⟩
